import Mathlib

/-!
Verification development for the sender-classification and feature-extraction
core of `Machine Learning/preprocessing.py` (function `build_sender_features`).

Strings are modelled as `List Char` (`Str`).  A possibly-missing (NaN/None)
input is `Option Str`.  Each compiled regex of the source is embedded as an
executable Boolean matcher recognising the same language; the embedding of
each matcher is commented with the regex it models.  Both call sites of the
helpers pass cleaned strings (no newlines), so the Python `$`-before-final
newline subtlety does not arise.
-/

namespace Preproc

abbrev Str := List Char

/-- Python `\s` for `str` patterns (and the `str.strip()` whitespace set):
space, tab, newline, carriage return, vertical tab, form feed, the file or
group separators 28–31, next line 133, no-break space 160, ogham space 5760,
the Unicode spaces 8192–8202, 8232, 8233, 8239, 8287 and 12288. -/
def isPySpace (c : Char) : Bool :=
  c == ' ' || c == '\t' || c == '\n' || c == '\r' ||
  c.val == 11 || c.val == 12 ||
  (28 ≤ c.val && c.val ≤ 31) ||
  c.val == 133 || c.val == 160 || c.val == 5760 ||
  (8192 ≤ c.val && c.val ≤ 8202) ||
  c.val == 8232 || c.val == 8233 || c.val == 8239 || c.val == 8287 ||
  c.val == 12288

/-- Drop the longest suffix of characters satisfying `p` (right-hand
counterpart of `List.dropWhile`, used for the right half of `str.strip`). -/
def dropTrailing (p : Char → Bool) : Str → Str
  | [] => []
  | c :: cs =>
    let r := dropTrailing p cs
    if r.isEmpty && p c then [] else c :: r

/-- Python `str.strip()`: remove leading and trailing whitespace. -/
def stripWs (s : Str) : Str :=
  dropTrailing isPySpace (s.dropWhile isPySpace)

/-- One pass of `re.sub(r'\s+', ' ', s)`: every maximal whitespace run is
replaced by a single space.  The flag records whether the previous character
was whitespace (i.e. the replacement space was already emitted). -/
def collapseAux : Bool → Str → Str
  | _, [] => []
  | prev, c :: cs =>
    if isPySpace c then
      if prev then collapseAux true cs else ' ' :: collapseAux true cs
    else c :: collapseAux false cs

/-- `re.sub(r'\s+', ' ', s)`. -/
def collapseWs (s : Str) : Str := collapseAux false s

/-- `_clean` on an actual string: `re.sub(r'\s+', ' ', s).strip()`. -/
def cleanStr (s : Str) : Str := stripWs (collapseWs s)

/-- `_clean`: NaN/None becomes the empty string, otherwise collapse
whitespace runs and strip. -/
def clean : Option Str → Str
  | none => []
  | some s => cleanStr s

/-- No two adjacent whitespace characters (invariant of collapsed strings,
used to characterise the image of `cleanStr`). -/
def noAdjWs : Str → Bool
  | a :: b :: r => !(isPySpace a && isPySpace b) && noAdjWs (b :: r)
  | _ => true

/-- Character set of Python `strip('" ')`. -/
def isQS (c : Char) : Bool := c == '"' || c == ' '

/-- Python `strip('" ')`: remove the characters `"` and space from both ends. -/
def stripQS (s : Str) : Str :=
  dropTrailing isQS (s.dropWhile isQS)

/-- `RE_EMAIL_ONLY = ^[^@\s]+@[^@\s]+\.[^@\s]+$`.
The part before the literal `@` cannot contain `@`, so the split is at the
first `@`; the remainder must be `@`-free and contain a dot that is neither
its first nor its last character (nonempty `[^@\s]+` on both sides). -/
def matchEmailOnly (s : Str) : Bool :=
  let lft := s.takeWhile (fun c => !(c == '@'))
  match s.dropWhile (fun c => !(c == '@')) with
  | [] => false
  | _ :: rest =>
    !lft.isEmpty && lft.all (fun c => !isPySpace c) &&
    !rest.isEmpty && rest.all (fun c => !isPySpace c && !(c == '@')) &&
    (rest.dropLast.drop 1).contains '.'

/-- `RE_PAREN_EMPTY = ^[^@\s]+@[^@\s]+\.[^@\s]+\s*\(\s*\)\s*$`, parsed from
the right; the closing `)` is the last non-whitespace character, the opening
`(` the nearest non-whitespace character before it. -/
def matchParenEmpty (s : Str) : Bool :=
  let t := dropTrailing isPySpace s
  if t.getLast? = some ')' then
    let t2 := dropTrailing isPySpace t.dropLast
    if t2.getLast? = some '(' then
      matchEmailOnly (dropTrailing isPySpace t2.dropLast)
    else false
  else false

/-- Search for a decomposition `head ++ '(' :: inner` of the text before the
final `)`, where `inner` is nonempty, free of `)`, and `head` (after its
trailing whitespace) is a bare address.  `acc` holds the reversed head read
so far. -/
def anyOpener : Str → Str → Bool
  | _, [] => false
  | acc, c :: rs =>
    (c == '(' && !rs.isEmpty && rs.all (fun x => !(x == ')')) &&
      matchEmailOnly (dropTrailing isPySpace acc.reverse)) ||
    anyOpener (c :: acc) rs

/-- `RE_PAREN_NAME = ^[^@\s]+@[^@\s]+\.[^@\s]+\s*\([^)]+\)\s*$`: the closing
`)` is the last non-whitespace character; some `(` before it must have a
nonempty `)`-free interior and an address (plus whitespace) before it. -/
def matchParenName (s : Str) : Bool :=
  let t := dropTrailing isPySpace s
  if t.getLast? = some ')' then anyOpener [] t.dropLast else false

/-- `RE_BRACKETS = \[[^\]]*\]` used with `.search`: the string contains a
`[` with some `]` after it (the first such `]` yields the match). -/
def hasBracketPair : Str → Bool
  | [] => false
  | c :: rs => (c == '[' && rs.contains ']') || hasBracketPair rs

/-- Character-by-character comparison of a pattern with the front of a
string (helper for the substring search of `re.search` on literals). -/
def startsWithB : Str → Str → Bool
  | [], _ => true
  | _ :: _, [] => false
  | p :: ps, c :: cs => p == c && startsWithB ps cs

/-- Literal substring search (`re.search` on a literal alternation). -/
def substrB (pat : Str) : Str → Bool
  | [] => pat.isEmpty
  | c :: rest => startsWithB pat (c :: rest) || substrB pat rest

/-- `RE_FAKE_DOMAIN = (no\.hostname\.specified|localhost|example\.com)` with
`re.I` and `.search`: one of the three literals occurs, case-insensitively,
anywhere in the string. -/
def containsFake (s : Str) : Bool :=
  let t := s.map Char.toLower
  substrB "no.hostname.specified".toList t ||
  substrB "localhost".toList t ||
  substrB "example.com".toList t

/-- Scan for the lazy (leftmost) opener `<` of
`RE_DISPLAY_ANGLE = ^(?P<disp>.*?)(?P<addr><\s*[^>]+@[^>]+\s*>)\s*$` inside
the text before the final `>`: its interior must be `>`-free and contain an
`@` with at least one character on each side.  `acc` is the reversed display
text read so far; the result is `(display, interior)`. -/
def findOpener : Str → Str → Option (Str × Str)
  | _, [] => none
  | acc, c :: rs =>
    if c == '<' && rs.all (fun x => !(x == '>')) &&
        (rs.dropLast.drop 1).contains '@' then
      some (acc.reverse, rs)
    else findOpener (c :: acc) rs

/-- `_split_display_angle`: returns `("", "")` when the string is empty or
`RE_DISPLAY_ANGLE` does not match; otherwise the display is stripped of
whitespace and of surrounding `"`/space characters, and the email is the
angle interior stripped of whitespace (the inner
`re.search(r'<\s*([^>]+)\s*>', addr)` group). -/
def splitDisplayAngle (s : Str) : Str × Str :=
  if s.isEmpty then ([], [])
  else
    let t := dropTrailing isPySpace s
    if t.getLast? = some '>' then
      match findOpener [] t.dropLast with
      | some (d, inner) => (stripQS (stripWs d), stripWs inner)
      | none => ([], [])
    else ([], [])

/-- `<[^>]+>$`: the string is `<`, a nonempty `>`-free interior, `>`, end. -/
def angleEnd : Str → Bool
  | '<' :: v =>
    v.getLast? = some '>' && !v.dropLast.isEmpty && v.dropLast.all (fun c => !(c == '>'))
  | _ => false

/-- `RE_QUOTED_NAME_ANG = ^"\s*[^"]+\s*"\s*<[^>]+>$`: the closing `"` is the
first `"` after the opening one; any nonempty quote-free middle fits
`\s*[^"]+\s*` since `[^"]` includes whitespace. -/
def matchQuotedNameAng (s : Str) : Bool :=
  match s with
  | '"' :: rest =>
    let mid := rest.takeWhile (fun c => !(c == '"'))
    match rest.dropWhile (fun c => !(c == '"')) with
    | [] => false
    | _ :: rest2 => !mid.isEmpty && angleEnd (rest2.dropWhile isPySpace)
  | _ => false

/-- Character class `[^",<>]` of `RE_LAST_COMMA_FIRST`. -/
def isLCFChar (c : Char) : Bool :=
  !(c == '"') && !(c == ',') && !(c == '<') && !(c == '>')

/-- `RE_LAST_COMMA_FIRST = ^"?[^",<>]+,[^",<>]+"\s*<[^>]+>$`: optional
leading `"` (forced to be consumed when present, since `[^",<>]` rejects it),
a nonempty comma-free run, `,`, another nonempty run, a mandatory `"`,
whitespace, and an angle part ending the string.  The runs cannot stop early
because the following literals are excluded from the class. -/
def matchLastCommaFirst (s : Str) : Bool :=
  let s1 := match s with
    | '"' :: rest => rest
    | other => other
  let a := s1.takeWhile isLCFChar
  match s1.dropWhile isLCFChar with
  | ',' :: r2 =>
    let b := r2.takeWhile isLCFChar
    (match r2.dropWhile isLCFChar with
     | '"' :: r3 => !a.isEmpty && !b.isEmpty && angleEnd (r3.dropWhile isPySpace)
     | _ => false)
  | _ => false

/-- The class `[A-Za-zÀ-ÖØ-öø-ÿ'`’\-\. ]` built from `NAME_CHARS`. -/
def isNameChar (c : Char) : Bool :=
  ('A' ≤ c && c ≤ 'Z') || ('a' ≤ c && c ≤ 'z') ||
  (192 ≤ c.val && c.val ≤ 214) || (216 ≤ c.val && c.val ≤ 246) ||
  (248 ≤ c.val && c.val ≤ 255) ||
  c == '\'' || c == '`' || c.val == 8217 || c == '-' || c == '.' || c == ' '

/-- All decompositions of a string into a front and a back part. -/
def splits2 (s : Str) : List (Str × Str) :=
  (List.range (s.length + 1)).map fun i => (s.take i, s.drop i)

/-- `[NAME_CHARS]+\s+[NAME_CHARS]+\s*`: some decomposition into a nonempty
name-character run, nonempty whitespace, another nonempty name run and
trailing whitespace (the class itself contains the space character, so the
decomposition is genuinely existential). -/
def nameSeq (p : Str) : Bool :=
  (splits2 p).any fun w1 =>
    !w1.1.isEmpty && w1.1.all isNameChar &&
    (splits2 w1.2).any fun w2 =>
      !w2.1.isEmpty && w2.1.all isPySpace &&
      (splits2 w2.2).any fun w3 =>
        !w3.1.isEmpty && w3.1.all isNameChar && w3.2.all isPySpace

/-- `RE_NAME_ANG = ^[NAME_CHARS]+\s+[NAME_CHARS]+\s*<[^>]+>$`: the class and
`\s` both exclude `<`, so the split is at the first `<`. -/
def matchNameAng (s : Str) : Bool :=
  nameSeq (s.takeWhile (fun c => !(c == '<'))) &&
  angleEnd (s.dropWhile (fun c => !(c == '<')))

/-- `RE_USERNAME_STYLE = ^[A-Za-z0-9._-]+$`. -/
def matchUsernameStyle (s : Str) : Bool :=
  !s.isEmpty && s.all fun c =>
    ('A' ≤ c && c ≤ 'Z') || ('a' ≤ c && c ≤ 'z') || ('0' ≤ c && c ≤ '9') ||
    c == '.' || c == '_' || c == '-'

/-- The 15 sender categories, one per branch of the classification chain. -/
inductive Cat where
  | mail_only
  | mail_paren_name
  | name_angle
  | quoted_name
  | last_comma_first
  | username_angle
  | display_angle
  | multi_mails
  | mail_empty_parens
  | double_at
  | with_brackets
  | fake_domain
  | other
  | display_empty_angle
  | quoted_text_only
deriving DecidableEq

/-- The category string appended to `cats` in the branch of each `Cat`. -/
def categoryName : Cat → String
  | .mail_only => "mail_only"
  | .mail_paren_name => "mail_parentheses_lastname"
  | .name_angle => "lastname_firstname_angle"
  | .quoted_name => "quoted_lastname_firstname_angle"
  | .last_comma_first => "lastname_comma_firstname_angle"
  | .username_angle => "username_angle"
  | .display_angle => "display_angle"
  | .multi_mails => "multi_mails"
  | .mail_empty_parens => "mail_empty_parentheses"
  | .double_at => "mail_double_at"
  | .with_brackets => "mail_with_brackets"
  | .fake_domain => "mail_fake_domain"
  | .other => "other"
  | .display_empty_angle => "display_empty_angle"
  | .quoted_text_only => "quoted_text_only"

/-- The flag dictionary: `OrderedDict.fromkeys([...], 0)`, fields in the
source's key order, all initialised to 0. -/
structure FlagVector where
  is_mail_only : Nat := 0
  is_mail_paren_name : Nat := 0
  is_name_angle : Nat := 0
  is_quoted_name : Nat := 0
  is_last_comma_first : Nat := 0
  is_username_angle : Nat := 0
  is_display_angle : Nat := 0
  is_multi_mails : Nat := 0
  is_mail_empty_parens : Nat := 0
  is_double_at : Nat := 0
  is_mail_with_brackets : Nat := 0
  is_fake_domain : Nat := 0
  is_other : Nat := 0
  is_display_empty_angle : Nat := 0
  is_quoted_text_no_email : Nat := 0
deriving DecidableEq

/-- The single `flags[...] = 1` assignment performed in each branch. -/
def flagsOf : Cat → FlagVector
  | .mail_only => { is_mail_only := 1 }
  | .mail_paren_name => { is_mail_paren_name := 1 }
  | .name_angle => { is_name_angle := 1 }
  | .quoted_name => { is_quoted_name := 1 }
  | .last_comma_first => { is_last_comma_first := 1 }
  | .username_angle => { is_username_angle := 1 }
  | .display_angle => { is_display_angle := 1 }
  | .multi_mails => { is_multi_mails := 1 }
  | .mail_empty_parens => { is_mail_empty_parens := 1 }
  | .double_at => { is_double_at := 1 }
  | .with_brackets => { is_mail_with_brackets := 1 }
  | .fake_domain => { is_fake_domain := 1 }
  | .other => { is_other := 1 }
  | .display_empty_angle => { is_display_empty_angle := 1 }
  | .quoted_text_only => { is_quoted_text_no_email := 1 }

/-- The flag values in the `OrderedDict` key order. -/
def flagsList (f : FlagVector) : List Nat :=
  [f.is_mail_only, f.is_mail_paren_name, f.is_name_angle, f.is_quoted_name,
   f.is_last_comma_first, f.is_username_angle, f.is_display_angle,
   f.is_multi_mails, f.is_mail_empty_parens, f.is_double_at,
   f.is_mail_with_brackets, f.is_fake_domain, f.is_other,
   f.is_display_empty_angle, f.is_quoted_text_no_email]

/-- The category names aligned with the flag order (flag `i` is the flag of
category `categoryNames[i]`). -/
def categoryNames : List String :=
  ["mail_only", "mail_parentheses_lastname", "lastname_firstname_angle",
   "quoted_lastname_firstname_angle", "lastname_comma_firstname_angle",
   "username_angle", "display_angle", "multi_mails",
   "mail_empty_parentheses", "mail_double_at", "mail_with_brackets",
   "mail_fake_domain", "other", "display_empty_angle", "quoted_text_only"]

/-- One-hot vector of length 15 with a single 1 at index `i`. -/
def oneHot (i : Nat) : List Nat :=
  (List.range 15).map fun j => if j = i then 1 else 0

/-- The `else` block of lines 103–132: split off an angle address and
sub-classify by display shape, otherwise handle the two special cases,
otherwise `other`. -/
def classifyTail (sc : Str) : Cat :=
  let pr := splitDisplayAngle sc
  if !pr.2.isEmpty then
    let dispCore := stripQS pr.1
    if matchQuotedNameAng sc then .quoted_name
    else if matchLastCommaFirst sc then .last_comma_first
    else if matchNameAng sc then .name_angle
    else if matchUsernameStyle dispCore && !dispCore.contains ' ' then .username_angle
    else .display_angle
  else if stripWs sc = ['"', '"', ' ', '<', '>'] ∨ stripWs sc = ['"', '"', '<', '>'] then
    .display_empty_angle
  else if (stripWs sc).head? = some '"' ∧ (stripWs sc).getLast? = some '"' ∧
      ¬ sc.contains '@' then
    .quoted_text_only
  else .other

/-- The ordered decision chain of `build_sender_features` (lines 73–132 of
the source), producing the branch that fires. -/
def classifyCat (s : Option Str) : Cat :=
  let sc := clean s
  if sc.isEmpty then .other
  else if sc.contains ',' && decide (2 ≤ List.count '@' sc) then .multi_mails
  else if matchParenEmpty sc then .mail_empty_parens
  else if matchParenName sc then .mail_paren_name
  else if hasBracketPair sc then .with_brackets
  else if matchEmailOnly sc then .mail_only
  else if decide (1 < List.count '@' sc) then .double_at
  else if containsFake sc then .fake_domain
  else classifyTail sc

/-- `classify`: the category string together with its flag vector, as
accumulated into `cats` and `flag_dicts`. -/
def classifySender (s : Option Str) : String × FlagVector :=
  (categoryName (classifyCat s), flagsOf (classifyCat s))

/-- Lines 150–153: take the angle address if any, otherwise the whole
cleaned string when it is a bare address, otherwise nothing. -/
def locateEmail (sc : Str) : Str :=
  let e := (splitDisplayAngle sc).2
  if !e.isEmpty then e
  else if matchEmailOnly sc then sc
  else []

/-- Lines 154–156: `email.split("@", 1)` when `@` occurs, else two empties. -/
def splitLocalDomain (em : Str) : Str × Str :=
  if em.contains '@' then
    (em.takeWhile (fun c => !(c == '@')), (em.dropWhile (fun c => !(c == '@'))).tail)
  else ([], [])

/-- The local part of the located address of a raw sender value. -/
def localOf (s : Option Str) : Str :=
  (splitLocalDomain (locateEmail (clean s))).1

/-- The domain part of the located address of a raw sender value. -/
def domainOf (s : Option Str) : Str :=
  (splitLocalDomain (locateEmail (clean s))).2

/-- `_shannon_entropy`: 0.0 on the empty string, otherwise
`-Σ (cnt/n) * log2 (cnt/n)` over the character counts. -/
noncomputable def shannonEntropy (s : Str) : ℝ :=
  if s = [] then 0
  else
    -∑ c ∈ s.toFinset,
      ((List.count c s : ℝ) / (s.length : ℝ)) *
        Real.logb 2 ((List.count c s : ℝ) / (s.length : ℝ))

/-- All characters of the string are identical. -/
def allSameB : Str → Bool
  | [] => true
  | c :: r => r.all fun x => x == c

/-- The free/consumer provider set of `email_domain_is_free`. -/
def freeDomains : List Str :=
  ["gmail.com", "yahoo.com", "hotmail.com", "outlook.com", "aol.com",
   "icloud.com", "protonmail.com", "wanadoo.fr", "orange.fr", "laposte.net",
   "free.fr", "sfr.fr", "yandex.ru", "mail.ru", "zoho.com"].map String.toList

/-- The enriched feature row (lines 157–172), fields in dictionary order.
`re.search(r'\d', ...)` and `str.isdigit` are embedded as the ASCII digit
test. -/
structure Features where
  email_local_len : Nat
  email_domain_len : Nat
  email_local_entropy : ℝ
  email_local_has_digits : Nat
  email_local_has_underscore : Nat
  email_local_has_dot : Nat
  email_local_has_plus : Nat
  email_domain_is_free : Nat
  email_domain_has_digit : Nat
  email_domain_has_dash : Nat

/-- The feature extractor: clean, locate an address, split it at the first
`@`, and compute the ten enriched features. -/
noncomputable def extractFeatures (s : Option Str) : Features :=
  let loc := localOf s
  let dom := domainOf s
  { email_local_len := loc.length
    email_domain_len := dom.length
    email_local_entropy := shannonEntropy loc
    email_local_has_digits := if loc.any (fun c => c.isDigit) then 1 else 0
    email_local_has_underscore := if loc.contains '_' then 1 else 0
    email_local_has_dot := if loc.contains '.' then 1 else 0
    email_local_has_plus := if loc.contains '+' then 1 else 0
    email_domain_is_free := if dom.map Char.toLower ∈ freeDomains then 1 else 0
    email_domain_has_digit := if dom.any (fun c => c.isDigit) then 1 else 0
    email_domain_has_dash := if dom.contains '-' then 1 else 0 }

/-- The all-zero feature row produced when no address is located. -/
noncomputable def zeroFeatures : Features :=
  { email_local_len := 0, email_domain_len := 0, email_local_entropy := 0,
    email_local_has_digits := 0, email_local_has_underscore := 0,
    email_local_has_dot := 0, email_local_has_plus := 0,
    email_domain_is_free := 0, email_domain_has_digit := 0,
    email_domain_has_dash := 0 }

/-- The per-row dictionary of the extractor with its column names, in the
order of the dict literal of lines 157–172. -/
noncomputable def featurePairs (s : Option Str) : List (String × ℝ) :=
  let f := extractFeatures s
  [("email_local_len", (f.email_local_len : ℝ)),
   ("email_domain_len", (f.email_domain_len : ℝ)),
   ("email_local_entropy", f.email_local_entropy),
   ("email_local_has_digits", (f.email_local_has_digits : ℝ)),
   ("email_local_has_underscore", (f.email_local_has_underscore : ℝ)),
   ("email_local_has_dot", (f.email_local_has_dot : ℝ)),
   ("email_local_has_plus", (f.email_local_has_plus : ℝ)),
   ("email_domain_is_free", (f.email_domain_is_free : ℝ)),
   ("email_domain_has_digit", (f.email_domain_has_digit : ℝ)),
   ("email_domain_has_dash", (f.email_domain_has_dash : ℝ))]

/-- The feature column names the batch entry point appends, in order. -/
noncomputable def featureColumns (s : Option Str) : List String :=
  (featurePairs s).map Prod.fst

/-- Each branch of the decision chain pairs its category string with the one
flag it raises: the flag vector of every branch is the one-hot vector at the
index of its category name. -/
theorem flags_one_hot_of_cat (k : Cat) :
    ∃ i, i < 15 ∧ categoryNames.get? i = some (categoryName k) ∧
      flagsList (flagsOf k) = oneHot i := by
  cases k
  case mail_only => exact ⟨0, by decide, by decide, by decide⟩
  case mail_paren_name => exact ⟨1, by decide, by decide, by decide⟩
  case name_angle => exact ⟨2, by decide, by decide, by decide⟩
  case quoted_name => exact ⟨3, by decide, by decide, by decide⟩
  case last_comma_first => exact ⟨4, by decide, by decide, by decide⟩
  case username_angle => exact ⟨5, by decide, by decide, by decide⟩
  case display_angle => exact ⟨6, by decide, by decide, by decide⟩
  case multi_mails => exact ⟨7, by decide, by decide, by decide⟩
  case mail_empty_parens => exact ⟨8, by decide, by decide, by decide⟩
  case double_at => exact ⟨9, by decide, by decide, by decide⟩
  case with_brackets => exact ⟨10, by decide, by decide, by decide⟩
  case fake_domain => exact ⟨11, by decide, by decide, by decide⟩
  case other => exact ⟨12, by decide, by decide, by decide⟩
  case display_empty_angle => exact ⟨13, by decide, by decide, by decide⟩
  case quoted_text_only => exact ⟨14, by decide, by decide, by decide⟩

/-- C1: for every input (null included), `classify` returns one of the 15
category names, and the flag vector is the one-hot vector at the index of
that category, so exactly one flag is 1 and it is the corresponding one. -/
theorem c1_classify_total_one_hot (s : Option Str) :
    (classifySender s).1 ∈ categoryNames ∧
    ∃ i, i < 15 ∧ categoryNames.get? i = some (classifySender s).1 ∧
      flagsList (classifySender s).2 = oneHot i := by
  obtain ⟨i, hi, hget, hflag⟩ := flags_one_hot_of_cat (classifyCat s)
  exact ⟨List.get?_mem hget, i, hi, hget, hflag⟩

/-- C2 counterexample: the fully quoted comma display of Scenario C is *not*
classified `lastname_comma_firstname_angle` (the quoted-name rule fires
first). -/
theorem c2_counterexample :
    classifyCat (some (String.toList "\"Smith, John\" <jsmith@corp.com>")) ≠
      Cat.last_comma_first := by decide

/-- C2 amended: a fully quoted comma display matches the quoted-name rule
first and yields `quoted_lastname_firstname_angle`; the comma rule fires for
a display with a closing quote but no opening quote; an unquoted comma
display falls through to `display_angle`. -/
theorem c2_amended_comma_display_cases :
    classifyCat (some (String.toList "\"Smith, John\" <jsmith@corp.com>")) =
      Cat.quoted_name ∧
    classifyCat (some (String.toList "Smith, John\" <jsmith@corp.com>")) =
      Cat.last_comma_first ∧
    classifyCat (some (String.toList "Last,First <a@b.com>")) =
      Cat.display_angle := by
  refine ⟨by decide, by decide, by decide⟩

/-- C7 counterexample: the extractor emits 10 feature columns, not 11. -/
theorem c7_counterexample : ¬ (featureColumns none).length = 11 := by
  simp [featureColumns, featurePairs]

/-- C7 amended: for every input row the extractor appends exactly 10 feature
columns, with exactly the listed names in declaration order. -/
theorem c7_feature_columns (s : Option Str) :
    featureColumns s =
      ["email_local_len", "email_domain_len", "email_local_entropy",
       "email_local_has_digits", "email_local_has_underscore",
       "email_local_has_dot", "email_local_has_plus", "email_domain_is_free",
       "email_domain_has_digit", "email_domain_has_dash"] ∧
    (featureColumns s).length = 10 := by
  exact ⟨rfl, rfl⟩

/-- `dropTrailing` keeps a list whose last element does not satisfy `p`. -/
theorem dropTrailing_eq_self {p : Char → Bool} : ∀ {s : Str},
    (∀ c, s.getLast? = some c → p c = false) → dropTrailing p s = s
  | [], _ => rfl
  | [a], h => by
    have ha : p a = false := h a rfl
    simp [dropTrailing, ha]
  | a :: b :: bs, h => by
    have ih : dropTrailing p (b :: bs) = b :: bs :=
      dropTrailing_eq_self (fun c hc => h c (by rw [List.getLast?_cons_cons]; exact hc))
    show (if (dropTrailing p (b :: bs)).isEmpty && p a then []
          else a :: dropTrailing p (b :: bs)) = a :: b :: bs
    rw [ih]
    rfl

/-- The head of a `dropWhile` result fails the predicate. -/
theorem dropWhile_head_false {p : Char → Bool} : ∀ {s : Str} {a : Char} {r : Str},
    s.dropWhile p = a :: r → p a = false := by
  intro s
  induction s with
  | nil => intro a r h; simp [List.dropWhile] at h
  | cons x xs ih =>
    intro a r h
    by_cases hx : p x
    · rw [List.dropWhile_cons_of_pos hx] at h; exact ih h
    · rw [List.dropWhile_cons_of_neg hx] at h
      cases h
      exact Bool.eq_false_iff.mpr hx

/-- `takeWhile`/`dropWhile` at a forced split point. -/
theorem takeWhile_dropWhile_split {p : Char → Bool} : ∀ (xs : Str) (y : Char) (ys : Str),
    (∀ x ∈ xs, p x = true) → p y = false →
    (xs ++ y :: ys).takeWhile p = xs ∧ (xs ++ y :: ys).dropWhile p = y :: ys
  | [], y, ys, _, hy => by simp [List.takeWhile, List.dropWhile, hy]
  | x :: xs, y, ys, hall, hy => by
    have hx : p x = true := hall x (List.mem_cons_self x xs)
    have ih := takeWhile_dropWhile_split xs y ys (fun a ha => hall a (List.mem_cons_of_mem _ ha)) hy
    simp [List.takeWhile_cons, List.dropWhile_cons, hx, ih.1, ih.2]

/-- A string accepted by the bare-address pattern contains no whitespace. -/
theorem matchEmailOnly_no_ws {s : Str} (h : matchEmailOnly s = true) :
    ∀ c ∈ s, isPySpace c = false := by
  intro c hc
  unfold matchEmailOnly at h
  cases hdw : s.dropWhile (fun c => !(c == '@')) with
  | nil => rw [hdw] at h; simp at h
  | cons a rest =>
    rw [hdw] at h
    simp only [Bool.and_eq_true, List.all_eq_true] at h
    obtain ⟨⟨⟨⟨_, hlft⟩, _⟩, hrest⟩, _⟩ := h
    have ha : (!(a == '@')) = false := dropWhile_head_false hdw
    have haeq : a = '@' := by simpa using ha
    have hsplit : s.takeWhile (fun c => !(c == '@')) ++ a :: rest = s := by
      rw [← hdw]; exact List.takeWhile_append_dropWhile _ _
    rw [← hsplit] at hc
    rcases List.mem_append.mp hc with hL | hR
    · simpa using hlft c hL
    · rcases List.mem_cons.mp hR with rfl | hR'
      · rw [haeq]; decide
      · have := hrest c hR'
        simp only [Bool.and_eq_true] at this
        simpa using this.1

/-- C3: on any input whose cleaned form contains a comma and at least two
`@` symbols, rule 2 fires and the category is `multi_mails`, regardless of
any later rule's pattern. -/
theorem c3_multi_mails (s : Option Str) (hc : ',' ∈ clean s)
    (ha : 2 ≤ List.count '@' (clean s)) : classifyCat s = Cat.multi_mails := by
  have h1 : (clean s).isEmpty = false := by
    cases hcl : clean s with
    | nil => rw [hcl] at hc; exact absurd hc (List.not_mem_nil _)
    | cons x xs => rfl
  have h2 : (clean s).contains ',' = true := List.elem_iff.mpr hc
  have h3 : decide (2 ≤ List.count '@' (clean s)) = true := decide_eq_true ha
  have hcond : ((clean s).contains ',' && decide (2 ≤ List.count '@' (clean s))) = true := by
    rw [h2, h3]; rfl
  unfold classifyCat
  rw [if_neg (by rw [h1]; exact Bool.false_ne_true), if_pos hcond]

/-- C3 witness: Scenario E, where each comma-separated fragment individually
matches the bare-address pattern. -/
theorem c3_witness :
    classifyCat (some (String.toList "a@b.com, c@d.com")) = Cat.multi_mails ∧
    matchEmailOnly (String.toList "a@b.com") = true ∧
    matchEmailOnly (String.toList "c@d.com") = true :=
  ⟨c3_multi_mails _ (by decide) (by decide), by decide, by decide⟩

/-- When no address is located, the extractor's row is all zeros. -/
theorem features_zero_of_no_email (s : Option Str)
    (h : locateEmail (clean s) = []) : extractFeatures s = zeroFeatures := by
  have hl : localOf s = [] := by
    unfold localOf splitLocalDomain
    rw [h]; rfl
  have hd : domainOf s = [] := by
    unfold domainOf splitLocalDomain
    rw [h]; rfl
  unfold extractFeatures zeroFeatures
  rw [hl, hd]
  simp [shannonEntropy, freeDomains]

/-- C5: whenever no email address can be located (null and empty inputs
included), the feature vector is fully populated with zeros: both lengths
are 0, the entropy is 0.0 and every boolean feature is 0. -/
theorem c5_no_email_all_zero (s : Option Str)
    (h : locateEmail (clean s) = []) : extractFeatures s = zeroFeatures :=
  features_zero_of_no_email s h

/-- Every branch of the post-rule-8 tail yields a category other than
`mail_fake_domain`. -/
theorem classifyTail_ne_fake (sc : Str) : classifyTail sc ≠ Cat.fake_domain := by
  unfold classifyTail
  dsimp only
  split
  · split
    · decide
    · split
      · decide
      · split
        · decide
        · split
          · decide
          · decide
  · split
    · decide
    · split
      · decide
      · decide

/-- C4 counterexample: `localhost <a@b.c>` reaches rule 8 and is classified
`mail_fake_domain` although the located address's domain is `b.c`, which
matches none of the placeholder patterns — the code searches the whole
cleaned string, not the domain. -/
theorem c4_counterexample :
    classifyCat (some (String.toList "localhost <a@b.c>")) = Cat.fake_domain ∧
    domainOf (some (String.toList "localhost <a@b.c>")) = String.toList "b.c" ∧
    containsFake (domainOf (some (String.toList "localhost <a@b.c>"))) = false :=
  ⟨by decide, by decide, by decide⟩

/-- C4 amended: on any input not caught by rules 1–7, the category is
`mail_fake_domain` iff one of the placeholder patterns (`localhost`,
`example.com`, `no.hostname.specified`, case-insensitive) occurs anywhere in
the cleaned string (not necessarily in the address's domain). -/
theorem c4_fake_domain_iff (s : Option Str) (h0 : clean s ≠ [])
    (h1 : ¬(',' ∈ clean s ∧ 2 ≤ List.count '@' (clean s)))
    (h2 : matchParenEmpty (clean s) = false)
    (h3 : matchParenName (clean s) = false)
    (h4 : hasBracketPair (clean s) = false)
    (h5 : matchEmailOnly (clean s) = false)
    (h6 : ¬ 1 < List.count '@' (clean s)) :
    classifyCat s = Cat.fake_domain ↔ containsFake (clean s) = true := by
  have he : (clean s).isEmpty = false := by
    cases hcl : clean s with
    | nil => exact absurd hcl h0
    | cons x xs => rfl
  have hr2 : ((clean s).contains ',' && decide (2 ≤ List.count '@' (clean s))) = false := by
    by_cases hm : ',' ∈ clean s
    · have hn : ¬ 2 ≤ List.count '@' (clean s) := fun hle => h1 ⟨hm, hle⟩
      rw [decide_eq_false hn, Bool.and_false]
    · have hcf : (clean s).contains ',' = false :=
        Bool.eq_false_iff.mpr (fun hh => hm (List.elem_iff.mp hh))
      rw [hcf, Bool.false_and]
  unfold classifyCat
  rw [if_neg (by rw [he]; exact Bool.false_ne_true),
      if_neg (by rw [hr2]; exact Bool.false_ne_true),
      if_neg (by rw [h2]; exact Bool.false_ne_true),
      if_neg (by rw [h3]; exact Bool.false_ne_true),
      if_neg (by rw [h4]; exact Bool.false_ne_true),
      if_neg (by rw [h5]; exact Bool.false_ne_true),
      if_neg (by simpa using h6)]
  constructor
  · intro hEq
    by_contra hcf
    rw [if_neg hcf] at hEq
    exact classifyTail_ne_fake (clean s) hEq
  · intro hcf
    rw [if_pos hcf]

/-- C4 witness: Scenario F, `someone@localhost`, reaches rule 8 (its domain
has no dot, so the bare-address rule does not fire) and is classified
`mail_fake_domain`. -/
theorem c4_witness :
    classifyCat (some (String.toList "someone@localhost")) = Cat.fake_domain :=
  (c4_fake_domain_iff _ (by decide) (by decide) (by decide) (by decide)
      (by decide) (by decide) (by decide)).mpr (by decide)

/-- C5 witness: the null and empty inputs locate no address and produce the
all-zero row. -/
theorem c5_witness :
    locateEmail (clean none) = [] ∧ locateEmail (clean (some [])) = [] ∧
    extractFeatures none = zeroFeatures ∧
    extractFeatures (some []) = zeroFeatures :=
  ⟨by decide, by decide, c5_no_email_all_zero none (by decide),
   c5_no_email_all_zero (some []) (by decide)⟩

/-- Whitespace characters surviving a collapse are single spaces. -/
theorem collapseAux_wsSp : ∀ (b : Bool) (s : Str), ∀ c ∈ collapseAux b s,
    isPySpace c = true → c = ' '
  | _, [], c, hc, _ => absurd hc (List.not_mem_nil c)
  | b, x :: xs, c, hc, hws => by
    by_cases hx : isPySpace x
    · cases b with
      | true =>
        rw [show collapseAux true (x :: xs) = collapseAux true xs by
              simp [collapseAux, hx]] at hc
        exact collapseAux_wsSp true xs c hc hws
      | false =>
        rw [show collapseAux false (x :: xs) = ' ' :: collapseAux true xs by
              simp [collapseAux, hx]] at hc
        rcases List.mem_cons.mp hc with rfl | h'
        · rfl
        · exact collapseAux_wsSp true xs c h' hws
    · rw [show collapseAux b (x :: xs) = x :: collapseAux false xs by
            simp [collapseAux, hx]] at hc
      rcases List.mem_cons.mp hc with rfl | h'
      · exact absurd hws hx
      · exact collapseAux_wsSp false xs c h' hws

/-- After a pending space the collapse output starts with non-whitespace. -/
theorem collapseAux_true_head : ∀ (s : Str) {c : Char} {r : Str},
    collapseAux true s = c :: r → isPySpace c = false
  | [], c, r, h => by simp [collapseAux] at h
  | x :: xs, c, r, h => by
    by_cases hx : isPySpace x
    · rw [show collapseAux true (x :: xs) = collapseAux true xs by
            simp [collapseAux, hx]] at h
      exact collapseAux_true_head xs h
    · rw [show collapseAux true (x :: xs) = x :: collapseAux false xs by
            simp [collapseAux, hx]] at h
      cases h
      exact Bool.eq_false_iff.mpr hx

/-- Prepending below a safe head keeps the no-adjacent-whitespace invariant. -/
theorem noAdjWs_cons {c : Char} {xs : Str}
    (hhead : ∀ d r, xs = d :: r → (isPySpace c && isPySpace d) = false)
    (hxs : noAdjWs xs = true) : noAdjWs (c :: xs) = true := by
  cases xs with
  | nil => rfl
  | cons d r =>
    show (!(isPySpace c && isPySpace d) && noAdjWs (d :: r)) = true
    rw [hhead d r rfl, hxs]
    rfl

/-- Collapsed strings have no adjacent whitespace. -/
theorem collapseAux_noAdj : ∀ (b : Bool) (s : Str), noAdjWs (collapseAux b s) = true
  | _, [] => rfl
  | b, x :: xs => by
    by_cases hx : isPySpace x
    · cases b with
      | true =>
        rw [show collapseAux true (x :: xs) = collapseAux true xs by
              simp [collapseAux, hx]]
        exact collapseAux_noAdj true xs
      | false =>
        rw [show collapseAux false (x :: xs) = ' ' :: collapseAux true xs by
              simp [collapseAux, hx]]
        refine noAdjWs_cons (fun d r hd => ?_) (collapseAux_noAdj true xs)
        rw [collapseAux_true_head xs hd, Bool.and_false]
    · rw [show collapseAux b (x :: xs) = x :: collapseAux false xs by
            simp [collapseAux, hx]]
      refine noAdjWs_cons (fun d r hd => ?_) (collapseAux_noAdj false xs)
      rw [Bool.eq_false_iff.mpr hx, Bool.false_and]

/-- The invariant restricted to a tail. -/
theorem noAdjWs_tail {c : Char} {r : Str} (h : noAdjWs (c :: r) = true) :
    noAdjWs r = true := by
  cases r with
  | nil => rfl
  | cons d rs =>
    have h2 : (!(isPySpace c && isPySpace d) && noAdjWs (d :: rs)) = true := h
    rw [Bool.and_eq_true] at h2
    exact h2.2

/-- `dropWhile` preserves the no-adjacent-whitespace invariant. -/
theorem noAdjWs_dropWhile (p : Char → Bool) : ∀ (s : Str), noAdjWs s = true →
    noAdjWs (s.dropWhile p) = true
  | [], h => h
  | c :: cs, h => by
    by_cases hc : p c
    · rw [List.dropWhile_cons_of_pos hc]
      exact noAdjWs_dropWhile p cs (noAdjWs_tail h)
    · rw [List.dropWhile_cons_of_neg hc]
      exact h

/-- Members of a `dropWhile` result are members of the original list. -/
theorem mem_dropWhile {p : Char → Bool} : ∀ (s : Str) {c : Char},
    c ∈ s.dropWhile p → c ∈ s
  | [], _, h => h
  | x :: xs, c, h => by
    by_cases hx : p x
    · rw [List.dropWhile_cons_of_pos hx] at h
      exact List.mem_cons_of_mem _ (mem_dropWhile xs h)
    · rw [List.dropWhile_cons_of_neg hx] at h
      exact h

/-- `dropTrailing` of a cons either empties or keeps the head. -/
theorem dropTrailing_cons (p : Char → Bool) (c : Char) (cs : Str) :
    dropTrailing p (c :: cs) = [] ∨
      dropTrailing p (c :: cs) = c :: dropTrailing p cs := by
  by_cases h : ((dropTrailing p cs).isEmpty && p c) = true
  · left
    show (if (dropTrailing p cs).isEmpty && p c then [] else c :: dropTrailing p cs) = []
    rw [if_pos h]
  · right
    show (if (dropTrailing p cs).isEmpty && p c then [] else c :: dropTrailing p cs) = _
    rw [if_neg h]

/-- Members of a `dropTrailing` result are members of the original list. -/
theorem mem_dropTrailing (p : Char → Bool) : ∀ (s : Str) {c : Char},
    c ∈ dropTrailing p s → c ∈ s
  | [], _, h => h
  | x :: xs, c, h => by
    rcases dropTrailing_cons p x xs with he | he
    · rw [he] at h
      exact absurd h (List.not_mem_nil c)
    · rw [he] at h
      rcases List.mem_cons.mp h with rfl | h'
      · exact List.mem_cons_self _ _
      · exact List.mem_cons_of_mem _ (mem_dropTrailing p xs h')

/-- `dropTrailing` preserves the head of the list. -/
theorem dropTrailing_head (p : Char → Bool) (s : Str) {c : Char} {r : Str}
    (h : dropTrailing p s = c :: r) : s.head? = some c := by
  cases s with
  | nil => simp [dropTrailing] at h
  | cons x xs =>
    rcases dropTrailing_cons p x xs with he | he
    · rw [he] at h
      simp at h
    · rw [he] at h
      cases h
      rfl

/-- `dropTrailing` preserves the no-adjacent-whitespace invariant. -/
theorem noAdjWs_dropTrailing (p : Char → Bool) : ∀ (s : Str), noAdjWs s = true →
    noAdjWs (dropTrailing p s) = true
  | [], h => h
  | x :: xs, h => by
    rcases dropTrailing_cons p x xs with he | he
    · rw [he]; rfl
    · rw [he]
      refine noAdjWs_cons (fun d r hd => ?_) (noAdjWs_dropTrailing p xs (noAdjWs_tail h))
      have hx : xs.head? = some d := dropTrailing_head p xs hd
      cases xs with
      | nil => simp at hx
      | cons y ys =>
        have hy : y = d := by simpa using hx
        subst hy
        have h2 : (!(isPySpace x && isPySpace y) && noAdjWs (y :: ys)) = true := h
        rw [Bool.and_eq_true] at h2
        have h1 := h2.1
        rw [Bool.not_eq_true'] at h1
        exact h1

/-- The last element of a `dropTrailing` result fails `p`. -/
theorem dropTrailing_getLast (p : Char → Bool) : ∀ (s : Str) {c : Char},
    (dropTrailing p s).getLast? = some c → p c = false
  | [], c, h => by simp [dropTrailing] at h
  | x :: xs, c, h => by
    by_cases hcond : ((dropTrailing p xs).isEmpty && p x) = true
    · have he : dropTrailing p (x :: xs) = [] := by
        show (if (dropTrailing p xs).isEmpty && p x then [] else x :: dropTrailing p xs) = []
        rw [if_pos hcond]
      rw [he] at h
      simp at h
    · have he : dropTrailing p (x :: xs) = x :: dropTrailing p xs := by
        show (if (dropTrailing p xs).isEmpty && p x then [] else x :: dropTrailing p xs) = _
        rw [if_neg hcond]
      rw [he] at h
      cases hr : dropTrailing p xs with
      | nil =>
        rw [hr] at h
        have hc : x = c := by simpa using h
        subst hc
        rw [hr] at hcond
        simpa using hcond
      | cons y ys =>
        rw [hr, List.getLast?_cons_cons] at h
        exact dropTrailing_getLast p xs (by rw [hr]; exact h)

/-- A string of single-space whitespace with no adjacent whitespace (and,
when a space is pending, a non-whitespace head) is a collapse fixpoint. -/
theorem collapseAux_fix : ∀ (b : Bool) (s : Str),
    (∀ c ∈ s, isPySpace c = true → c = ' ') → noAdjWs s = true →
    (b = true → ∀ c r, s = c :: r → isPySpace c = false) →
    collapseAux b s = s
  | _, [], _, _, _ => rfl
  | b, x :: xs, hws, hadj, hb => by
    by_cases hx : isPySpace x
    · have hxsp : x = ' ' := hws x (List.mem_cons_self _ _) hx
      cases b with
      | true => exact absurd hx (by simp [hb rfl x xs rfl])
      | false =>
        have hhead : ∀ c r, xs = c :: r → isPySpace c = false := by
          intro c r hcr
          subst hcr
          have h2 : (!(isPySpace x && isPySpace c) && noAdjWs (c :: r)) = true := hadj
          rw [Bool.and_eq_true] at h2
          have h1 := h2.1
          rw [Bool.not_eq_true'] at h1
          simp [hx] at h1
          exact h1
        rw [show collapseAux false (x :: xs) = ' ' :: collapseAux true xs by
              simp [collapseAux, hx],
            collapseAux_fix true xs (fun c hc => hws c (List.mem_cons_of_mem _ hc))
              (noAdjWs_tail hadj) (fun _ => hhead), hxsp]
    · rw [show collapseAux b (x :: xs) = x :: collapseAux false xs by
            simp [collapseAux, hx],
          collapseAux_fix false xs (fun c hc => hws c (List.mem_cons_of_mem _ hc))
            (noAdjWs_tail hadj) (fun h => absurd h Bool.false_ne_true)]

/-- The head of a stripped string is not whitespace. -/
theorem stripWs_head (s : Str) {c : Char} {r : Str} (h : stripWs s = c :: r) :
    isPySpace c = false := by
  unfold stripWs at h
  have h2 := dropTrailing_head isPySpace _ h
  cases hdw : s.dropWhile isPySpace with
  | nil => rw [hdw] at h2; simp at h2
  | cons y ys =>
    rw [hdw] at h2
    have hy : y = c := by simpa using h2
    subst hy
    exact dropWhile_head_false hdw

/-- The last element of a stripped string is not whitespace. -/
theorem stripWs_getLast (s : Str) {c : Char} (h : (stripWs s).getLast? = some c) :
    isPySpace c = false := by
  unfold stripWs at h
  exact dropTrailing_getLast isPySpace _ h

/-- The four invariants of every cleaned string. -/
theorem cleanStr_invariants (s : Str) :
    (∀ c ∈ cleanStr s, isPySpace c = true → c = ' ') ∧
    noAdjWs (cleanStr s) = true ∧
    (∀ c r, cleanStr s = c :: r → isPySpace c = false) ∧
    (∀ c, (cleanStr s).getLast? = some c → isPySpace c = false) := by
  refine ⟨?_, ?_, ?_, ?_⟩
  · intro c hc hws
    exact collapseAux_wsSp false s c
      (mem_dropWhile _ (mem_dropTrailing isPySpace _ hc)) hws
  · exact noAdjWs_dropTrailing isPySpace _
      (noAdjWs_dropWhile isPySpace _ (collapseAux_noAdj false s))
  · intro c r h
    exact stripWs_head _ h
  · intro c h
    exact stripWs_getLast _ h

/-- Any string enjoying the cleaned-string invariants is a `cleanStr`
fixpoint. -/
theorem cleanStr_fix {r : Str}
    (hws : ∀ c ∈ r, isPySpace c = true → c = ' ')
    (hadj : noAdjWs r = true)
    (hhd : ∀ c rr, r = c :: rr → isPySpace c = false)
    (hlast : ∀ c, r.getLast? = some c → isPySpace c = false) :
    cleanStr r = r := by
  unfold cleanStr collapseWs
  rw [collapseAux_fix false r hws hadj (fun h => absurd h Bool.false_ne_true)]
  unfold stripWs
  have hdw : r.dropWhile isPySpace = r := by
    cases hr : r with
    | nil => rfl
    | cons c rr =>
      exact List.dropWhile_cons_of_neg (by simp [hhd c rr hr])
  rw [hdw, dropTrailing_eq_self hlast]

/-- C8: cleaning is total (null becomes empty) and idempotent — cleaning a
cleaned string returns it unchanged. -/
theorem c8_clean_idempotent (s : Option Str) :
    clean (some (clean s)) = clean s := by
  cases s with
  | none =>
    show cleanStr [] = []
    rfl
  | some t =>
    show cleanStr (cleanStr t) = cleanStr t
    obtain ⟨h1, h2, h3, h4⟩ := cleanStr_invariants t
    exact cleanStr_fix h1 h2 h3 h4

/-- Strings without whitespace have no adjacent whitespace. -/
theorem noAdjWs_of_no_ws : ∀ {s : Str}, (∀ c ∈ s, isPySpace c = false) →
    noAdjWs s = true
  | [], _ => rfl
  | [_], _ => rfl
  | a :: b :: r, h => by
    show (!(isPySpace a && isPySpace b) && noAdjWs (b :: r)) = true
    rw [h a (List.mem_cons_self _ _), Bool.false_and,
        noAdjWs_of_no_ws (fun c hc => h c (List.mem_cons_of_mem _ hc))]
    rfl

/-- A whitespace-free string is already clean. -/
theorem cleanStr_eq_self_of_no_ws {s : Str}
    (h : ∀ c ∈ s, isPySpace c = false) : cleanStr s = s := by
  apply cleanStr_fix
  · intro c hc hws
    rw [h c hc] at hws
    exact absurd hws Bool.false_ne_true
  · exact noAdjWs_of_no_ws h
  · intro c rr hrr
    exact h c (by rw [hrr]; exact List.mem_cons_self _ _)
  · intro c hc
    exact h c (List.mem_of_mem_getLast? hc)

/-- A string without `[` has no bracket pair. -/
theorem hasBracketPair_eq_false : ∀ {s : Str}, (∀ c ∈ s, c ≠ '[') →
    hasBracketPair s = false
  | [], _ => rfl
  | c :: rs, h => by
    show ((c == '[' && rs.contains ']') || hasBracketPair rs) = false
    rw [beq_false_of_ne (h c (List.mem_cons_self _ _)), Bool.false_and,
        hasBracketPair_eq_false (fun x hx => h x (List.mem_cons_of_mem _ hx)),
        Bool.false_or]

/-- The empty-parentheses rule needs a final non-whitespace `)`. -/
theorem matchParenEmpty_of_last_ne {s : Str}
    (h : ¬ (dropTrailing isPySpace s).getLast? = some ')') :
    matchParenEmpty s = false := by
  show (if (dropTrailing isPySpace s).getLast? = some ')' then _ else false) = false
  rw [if_neg h]

/-- The parenthesised-name rule needs a final non-whitespace `)`. -/
theorem matchParenName_of_last_ne {s : Str}
    (h : ¬ (dropTrailing isPySpace s).getLast? = some ')') :
    matchParenName s = false := by
  show (if (dropTrailing isPySpace s).getLast? = some ')' then _ else false) = false
  rw [if_neg h]

/-- C9: a sender consisting solely of an angle-bracketed address with no
display text and no internal whitespace — inner domain containing a dot —
is accepted by the bare-address pattern (whose character classes accept `<`
and `>`), so rule 6 classifies it `mail_only` and the angle sub-rules are
never reached. -/
theorem c9_angle_only_mail_only (l d a b : Str)
    (_hl : l ≠ []) (ha : a ≠ []) (hd : d = a ++ '.' :: b)
    (hlc : ∀ c ∈ l, isPySpace c = false ∧ c ≠ '@' ∧ c ≠ '[')
    (hdc : ∀ c ∈ d, isPySpace c = false ∧ c ≠ '@' ∧ c ≠ '[') :
    classifyCat (some ('<' :: (l ++ '@' :: (d ++ ['>'])))) = Cat.mail_only := by
  set S : Str := '<' :: (l ++ '@' :: (d ++ ['>'])) with hS
  have hmem : ∀ c ∈ S, c = '<' ∨ c ∈ l ∨ c = '@' ∨ c ∈ d ∨ c = '>' := by
    intro c hc
    rw [hS] at hc
    simp only [List.mem_cons, List.mem_append, List.mem_singleton] at hc
    tauto
  have hws : ∀ c ∈ S, isPySpace c = false := by
    intro c hc
    rcases hmem c hc with rfl | h | rfl | h | rfl
    · decide
    · exact (hlc c h).1
    · decide
    · exact (hdc c h).1
    · decide
  have hnb : ∀ c ∈ S, c ≠ '[' := by
    intro c hc
    rcases hmem c hc with rfl | h | rfl | h | rfl
    · decide
    · exact (hlc c h).2.2
    · decide
    · exact (hdc c h).2.2
    · decide
  have hclean : clean (some S) = S := cleanStr_eq_self_of_no_ws hws
  have hcount : List.count '@' S = 1 := by
    have hld : '@' ∉ l := fun hc => ((hlc _ hc).2.1) rfl
    have hdd : '@' ∉ d := fun hc => ((hdc _ hc).2.1) rfl
    rw [hS]
    simp [List.count_cons, List.count_append, List.count_eq_zero.mpr hld,
      List.count_eq_zero.mpr hdd]
  have hshape : S = ('<' :: l ++ '@' :: d) ++ ['>'] := by
    rw [hS]; simp
  have hdt : dropTrailing isPySpace S = S :=
    dropTrailing_eq_self (fun c hc => hws c (List.mem_of_mem_getLast? hc))
  have hlastS : S.getLast? = some '>' := by
    rw [hshape]; exact List.getLast?_concat _
  have hlast_ne : ¬ (dropTrailing isPySpace S).getLast? = some ')' := by
    rw [hdt, hlastS]
    intro hx
    cases hx
  have hsplit := takeWhile_dropWhile_split (p := fun c => !(c == '@'))
    ('<' :: l) '@' (d ++ ['>'])
    (by
      intro x hx
      rcases List.mem_cons.mp hx with rfl | hx'
      · decide
      · show (!(x == '@')) = true
        rw [beq_false_of_ne ((hlc x hx').2.1)]
        rfl)
    (by decide)
  have hEmail : matchEmailOnly S = true := by
    have hSW : S = ('<' :: l) ++ '@' :: (d ++ ['>']) := by rw [hS]; simp
    unfold matchEmailOnly
    rw [show (S.dropWhile fun c => !(c == '@')) = '@' :: (d ++ ['>']) from by
          rw [hSW]; exact hsplit.2,
        show (S.takeWhile fun c => !(c == '@')) = '<' :: l from by
          rw [hSW]; exact hsplit.1]
    obtain ⟨x, a', rfl⟩ := List.exists_cons_of_ne_nil ha
    simp only [Bool.and_eq_true, List.all_eq_true]
    refine ⟨⟨⟨⟨rfl, ?_⟩, by simp⟩, ?_⟩, ?_⟩
    · intro c hc
      rcases List.mem_cons.mp hc with rfl | hc'
      · decide
      · rw [(hlc c hc').1]; rfl
    · intro c hc
      rcases List.mem_append.mp hc with hc' | hc'
      · refine ⟨?_, ?_⟩
        · rw [(hdc c hc').1]; rfl
        · rw [beq_false_of_ne (hdc c hc').2.1]; rfl
      · rcases List.mem_singleton.mp hc' with rfl
        exact ⟨rfl, rfl⟩
    · rw [show (d ++ ['>']).dropLast = d from List.dropLast_concat, hd]
      show (a' ++ '.' :: b).contains '.' = true
      exact List.elem_iff.mpr (List.mem_append.mpr (Or.inr (List.mem_cons_self _ _)))
  have hc1 : ¬ (S.isEmpty = true) := by
    rw [hS]
    exact Bool.false_ne_true
  have hdec2 : decide (2 ≤ List.count '@' S) = false := by
    rw [hcount]
    rfl
  have hc2 : ¬ ((S.contains ',' && decide (2 ≤ List.count '@' S)) = true) := by
    rw [hdec2, Bool.and_false]
    exact Bool.false_ne_true
  have hc3 : ¬ (matchParenEmpty S = true) := by
    rw [matchParenEmpty_of_last_ne hlast_ne]
    exact Bool.false_ne_true
  have hc4 : ¬ (matchParenName S = true) := by
    rw [matchParenName_of_last_ne hlast_ne]
    exact Bool.false_ne_true
  have hc5 : ¬ (hasBracketPair S = true) := by
    rw [hasBracketPair_eq_false hnb]
    exact Bool.false_ne_true
  unfold classifyCat
  rw [hclean, if_neg hc1, if_neg hc2, if_neg hc3, if_neg hc4, if_neg hc5,
      if_pos hEmail]

/-- C9 witness: the Scenario input `<a@b.com>`. -/
theorem c9_witness :
    classifyCat (some (String.toList "<a@b.com>")) = Cat.mail_only := by
  have h := c9_angle_only_mail_only (String.toList "a") (String.toList "b.com")
    (String.toList "b") (String.toList "com")
    (by decide) (by decide) (by decide) (by decide) (by decide)
  exact h

/-- C10: on any input whose cleaned form is `local@domain (name)` — the
parenthesised shapes, with the name possibly empty — the angle helper finds
no address (the last character is `)`, not `>`), the bare-address fallback
rejects the string (it contains a space), and every email feature is
zero/empty although an address is visibly present. -/
theorem c10_paren_no_address (s : Option Str) (loc dom nm : Str)
    (h : clean s = loc ++ '@' :: dom ++ ' ' :: '(' :: (nm ++ [')'])) :
    locateEmail (clean s) = [] ∧ extractFeatures s = zeroFeatures := by
  have hshape : clean s = (loc ++ '@' :: dom ++ ' ' :: '(' :: nm) ++ [')'] := by
    rw [h]; simp
  have hlast : (clean s).getLast? = some ')' := by
    rw [hshape]; exact List.getLast?_concat _
  have hne : clean s ≠ [] := by
    intro h0
    rw [h0] at hlast
    cases hlast
  have hlast_notws : ∀ c, (clean s).getLast? = some c → isPySpace c = false := by
    intro c hc
    rw [hlast] at hc
    cases hc
    decide
  have hdt : dropTrailing isPySpace (clean s) = clean s :=
    dropTrailing_eq_self hlast_notws
  have hsda : splitDisplayAngle (clean s) = ([], []) := by
    unfold splitDisplayAngle
    rw [if_neg (by
      intro hemp
      exact hne (List.isEmpty_iff.mp hemp))]
    rw [hdt, if_neg (by
      rw [hlast]
      intro hx
      cases hx)]
  have hmemsp : ' ' ∈ clean s := by
    rw [h]
    simp
  have hmE : matchEmailOnly (clean s) = false := by
    cases hb : matchEmailOnly (clean s) with
    | false => rfl
    | true =>
      have := matchEmailOnly_no_ws hb ' ' hmemsp
      exact absurd this (by decide)
  have hloc : locateEmail (clean s) = [] := by
    unfold locateEmail
    rw [hsda]
    simp [hmE]
  exact ⟨hloc, features_zero_of_no_email s hloc⟩

/-- C10 witness: the inputs `a@b.c (Bob)` and `x@y.zz ()` of the two
parenthesised categories locate no address and get the all-zero row. -/
theorem c10_witness :
    locateEmail (clean (some (String.toList "a@b.c (Bob)"))) = [] ∧
    extractFeatures (some (String.toList "a@b.c (Bob)")) = zeroFeatures ∧
    locateEmail (clean (some (String.toList "x@y.zz ()"))) = [] ∧
    extractFeatures (some (String.toList "x@y.zz ()")) = zeroFeatures := by
  obtain ⟨h1, h2⟩ := c10_paren_no_address (some (String.toList "a@b.c (Bob)"))
    (String.toList "a") (String.toList "b.c") (String.toList "Bob") (by decide)
  obtain ⟨h3, h4⟩ := c10_paren_no_address (some (String.toList "x@y.zz ()"))
    (String.toList "x") (String.toList "y.zz") [] (by decide)
  exact ⟨h1, h2, h3, h4⟩

/-- On a nonempty string, every character of the string occurs
length-many times exactly when all characters are identical. -/
theorem allSame_iff_counts (x : Char) (xs : Str) :
    allSameB (x :: xs) = true ↔
      ∀ c ∈ (x :: xs).toFinset, List.count c (x :: xs) = (x :: xs).length := by
  constructor
  · intro hall c hc
    have hbx : ∀ b ∈ x :: xs, b = x := by
      intro b hb
      rcases List.mem_cons.mp hb with rfl | hb'
      · rfl
      · exact beq_iff_eq.mp (List.all_eq_true.mp hall b hb')
    have hcx : c = x := hbx c (List.mem_toFinset.mp hc)
    subst hcx
    exact List.count_eq_length.mpr fun b hb => (hbx b hb).symm
  · intro hcnt
    have hx : x ∈ (x :: xs).toFinset :=
      List.mem_toFinset.mpr (List.mem_cons_self _ _)
    have hbx := List.count_eq_length.mp (hcnt x hx)
    exact List.all_eq_true.mpr fun c hc =>
      beq_iff_eq.mpr ((hbx c (List.mem_cons_of_mem _ hc)).symm)

/-- Every summand of the entropy sum is nonpositive. -/
theorem entropy_term_nonpos (s : Str) (c : Char) (hc : c ∈ s.toFinset) :
    ((List.count c s : ℝ) / (s.length : ℝ)) *
      Real.logb 2 ((List.count c s : ℝ) / (s.length : ℝ)) ≤ 0 := by
  have hposN : 0 < List.count c s :=
    List.count_pos_iff.mpr (List.mem_toFinset.mp hc)
  have hlenN : 0 < s.length := lt_of_lt_of_le hposN (List.count_le_length c s)
  have hpos : (0:ℝ) < (List.count c s : ℝ) := by exact_mod_cast hposN
  have hlen : (0:ℝ) < (s.length : ℝ) := by exact_mod_cast hlenN
  have hp_pos : (0:ℝ) < (List.count c s : ℝ) / (s.length : ℝ) := div_pos hpos hlen
  have hle1 : (List.count c s : ℝ) / (s.length : ℝ) ≤ 1 := by
    rw [div_le_one hlen]
    exact_mod_cast List.count_le_length c s
  have hlogb : Real.logb 2 ((List.count c s : ℝ) / (s.length : ℝ)) ≤ 0 :=
    Real.logb_nonpos one_lt_two (le_of_lt hp_pos) hle1
  exact mul_nonpos_iff.mpr (Or.inl ⟨le_of_lt hp_pos, hlogb⟩)

/-- The entropy formula of the claim, valid also on the empty string. -/
theorem shannonEntropy_formula (l : Str) :
    shannonEntropy l = -∑ c ∈ l.toFinset,
      ((List.count c l : ℝ) / (l.length : ℝ)) *
        Real.logb 2 ((List.count c l : ℝ) / (l.length : ℝ)) := by
  by_cases h : l = []
  · subst h
    simp [shannonEntropy]
  · rw [shannonEntropy, if_neg h]

/-- The entropy vanishes exactly when the string has at most one character
or all its characters are identical. -/
theorem shannonEntropy_eq_zero_iff (s : Str) :
    shannonEntropy s = 0 ↔ (s.length ≤ 1 ∨ allSameB s = true) := by
  cases s with
  | nil => simp [shannonEntropy]
  | cons x xs =>
    have hlen : (0:ℝ) < ((x :: xs).length : ℝ) := by
      exact_mod_cast Nat.succ_pos xs.length
    unfold shannonEntropy
    rw [if_neg (by simp), neg_eq_zero,
        Finset.sum_eq_zero_iff_of_nonpos (fun c hc => entropy_term_nonpos _ c hc)]
    constructor
    · intro hterm
      right
      rw [allSame_iff_counts]
      intro c hc
      have hposN := List.count_pos_iff.mpr (List.mem_toFinset.mp hc)
      have hpos : (0:ℝ) < (List.count c (x :: xs) : ℝ) := by exact_mod_cast hposN
      have hp_pos : (0:ℝ) < (List.count c (x :: xs) : ℝ) / ((x :: xs).length : ℝ) :=
        div_pos hpos hlen
      rcases mul_eq_zero.mp (hterm c hc) with h | h
      · exact absurd h (ne_of_gt hp_pos)
      · rcases Real.logb_eq_zero.mp h with h2 | h2 | h2 | h2 | h2 | h2
        · norm_num at h2
        · norm_num at h2
        · norm_num at h2
        · exact absurd h2 (ne_of_gt hp_pos)
        · have hcast := (div_eq_one_iff_eq (ne_of_gt hlen)).mp h2
          exact_mod_cast hcast
        · rw [h2] at hp_pos
          norm_num at hp_pos
    · intro hor c hc
      have hcount : List.count c (x :: xs) = (x :: xs).length := by
        rcases hor with hlen1 | hall
        · cases xs with
          | nil =>
            have hcx : c = x := by simpa using hc
            subst hcx
            simp
          | cons y ys =>
            exfalso
            simp only [List.length_cons] at hlen1
            omega
        · exact (allSame_iff_counts x xs).mp hall c hc
      rw [hcount, div_self (ne_of_gt hlen), Real.logb_one, mul_zero]

/-- Outside the vanishing cases the entropy is strictly positive. -/
theorem shannonEntropy_pos (s : Str)
    (h : ¬(s.length ≤ 1 ∨ allSameB s = true)) : 0 < shannonEntropy s := by
  push_neg at h
  obtain ⟨hlen1, hall⟩ := h
  cases s with
  | nil => simp at hlen1
  | cons x xs =>
    have hlen : (0:ℝ) < ((x :: xs).length : ℝ) := by
      exact_mod_cast Nat.succ_pos xs.length
    have hex : ∃ c ∈ (x :: xs).toFinset,
        List.count c (x :: xs) ≠ (x :: xs).length := by
      by_contra hno
      push_neg at hno
      exact hall ((allSame_iff_counts x xs).mpr hno)
    obtain ⟨c0, hc0, hneq⟩ := hex
    unfold shannonEntropy
    rw [if_neg (by simp),
        show (-∑ c ∈ (x :: xs).toFinset,
            ((List.count c (x :: xs) : ℝ) / ((x :: xs).length : ℝ)) *
              Real.logb 2 ((List.count c (x :: xs) : ℝ) / ((x :: xs).length : ℝ)))
          = ∑ c ∈ (x :: xs).toFinset,
            -(((List.count c (x :: xs) : ℝ) / ((x :: xs).length : ℝ)) *
              Real.logb 2 ((List.count c (x :: xs) : ℝ) / ((x :: xs).length : ℝ)))
          from (Finset.sum_neg_distrib).symm]
    apply Finset.sum_pos'
    · intro c hc
      exact neg_nonneg.mpr (entropy_term_nonpos _ c hc)
    · refine ⟨c0, hc0, ?_⟩
      have hposN := List.count_pos_iff.mpr (List.mem_toFinset.mp hc0)
      have hpos : (0:ℝ) < (List.count c0 (x :: xs) : ℝ) := by exact_mod_cast hposN
      have hp_pos := div_pos hpos hlen
      have hltN : List.count c0 (x :: xs) < (x :: xs).length :=
        lt_of_le_of_ne (List.count_le_length _ _) hneq
      have hp_lt1 : (List.count c0 (x :: xs) : ℝ) / ((x :: xs).length : ℝ) < 1 := by
        rw [div_lt_one hlen]
        exact_mod_cast hltN
      have hlog_neg := Real.logb_neg one_lt_two hp_pos hp_lt1
      exact neg_pos.mpr (mul_neg_of_pos_of_neg hp_pos hlog_neg)

/-- Jensen bound: the entropy is at most log2 of the number of distinct
characters. -/
theorem shannonEntropy_le_logb_card (s : Str) (hne : s ≠ []) :
    shannonEntropy s ≤ Real.logb 2 (s.toFinset.card : ℝ) := by
  obtain ⟨x, xs, rfl⟩ := List.exists_cons_of_ne_nil hne
  have hlen : (0:ℝ) < ((x :: xs).length : ℝ) := by
    exact_mod_cast Nat.succ_pos xs.length
  have hw_pos : ∀ c ∈ (x :: xs).toFinset,
      (0:ℝ) < (List.count c (x :: xs) : ℝ) / ((x :: xs).length : ℝ) := by
    intro c hc
    have hposN := List.count_pos_iff.mpr (List.mem_toFinset.mp hc)
    exact div_pos (by exact_mod_cast hposN) hlen
  have hw_sum : ∑ c ∈ (x :: xs).toFinset,
      (List.count c (x :: xs) : ℝ) / ((x :: xs).length : ℝ) = 1 := by
    rw [← Finset.sum_div,
        show (∑ c ∈ (x :: xs).toFinset, (List.count c (x :: xs) : ℝ))
            = ((x :: xs).length : ℝ) from by
          exact_mod_cast
            congrArg (Nat.cast : ℕ → ℝ) (List.sum_toFinset_count_eq_length (x :: xs))]
    exact div_self (ne_of_gt hlen)
  have hjensen := (strictConcaveOn_log_Ioi.concaveOn).le_map_sum
    (fun c hc => le_of_lt (hw_pos c hc)) hw_sum
    (p := fun c => ((List.count c (x :: xs) : ℝ) / ((x :: xs).length : ℝ))⁻¹)
    (fun c hc => Set.mem_Ioi.mpr (inv_pos.mpr (hw_pos c hc)))
  have hsum_inv : ∑ c ∈ (x :: xs).toFinset,
      ((List.count c (x :: xs) : ℝ) / ((x :: xs).length : ℝ)) •
        ((List.count c (x :: xs) : ℝ) / ((x :: xs).length : ℝ))⁻¹
      = ((x :: xs).toFinset.card : ℝ) := by
    rw [Finset.sum_congr rfl (fun c hc => by
      rw [smul_eq_mul, mul_inv_cancel₀ (ne_of_gt (hw_pos c hc))])]
    simp
  unfold shannonEntropy
  rw [if_neg (by simp)]
  have hL : (-∑ c ∈ (x :: xs).toFinset,
        ((List.count c (x :: xs) : ℝ) / ((x :: xs).length : ℝ)) *
          Real.logb 2 ((List.count c (x :: xs) : ℝ) / ((x :: xs).length : ℝ)))
      = (∑ c ∈ (x :: xs).toFinset,
        ((List.count c (x :: xs) : ℝ) / ((x :: xs).length : ℝ)) *
          Real.log (((List.count c (x :: xs) : ℝ) / ((x :: xs).length : ℝ))⁻¹))
        / Real.log 2 := by
    rw [← Finset.sum_neg_distrib, Finset.sum_div]
    apply Finset.sum_congr rfl
    intro c _
    rw [Real.log_inv, Real.logb]
    ring
  rw [hL,
      show Real.logb 2 (((x :: xs).toFinset.card : ℕ) : ℝ)
        = Real.log (((x :: xs).toFinset.card : ℕ) : ℝ) / Real.log 2 from rfl]
  apply (div_le_div_iff_of_pos_right (Real.log_pos one_lt_two)).mpr
  have hsm : ∑ c ∈ (x :: xs).toFinset,
      ((List.count c (x :: xs) : ℝ) / ((x :: xs).length : ℝ)) *
        Real.log (((List.count c (x :: xs) : ℝ) / ((x :: xs).length : ℝ))⁻¹)
      = ∑ c ∈ (x :: xs).toFinset,
      ((List.count c (x :: xs) : ℝ) / ((x :: xs).length : ℝ)) •
        Real.log (((List.count c (x :: xs) : ℝ) / ((x :: xs).length : ℝ))⁻¹) := by
    simp [smul_eq_mul]
  rw [hsm]
  have hjc := hjensen
  rw [hsum_inv] at hjc
  exact hjc

/-- C6: the extractor's local-entropy feature is the Shannon entropy of the
extracted local part; it equals −Σ p(c)·log2 p(c) over the character
frequencies, vanishes exactly when the local part has length ≤ 1 or all its
characters are identical, and otherwise is strictly positive and bounded by
log2 of the number of distinct characters. -/
theorem c6_entropy (s : Option Str) :
    (extractFeatures s).email_local_entropy = shannonEntropy (localOf s) ∧
    shannonEntropy (localOf s) = -∑ c ∈ (localOf s).toFinset,
      ((List.count c (localOf s) : ℝ) / ((localOf s).length : ℝ)) *
        Real.logb 2 ((List.count c (localOf s) : ℝ) / ((localOf s).length : ℝ)) ∧
    (shannonEntropy (localOf s) = 0 ↔
      ((localOf s).length ≤ 1 ∨ allSameB (localOf s) = true)) ∧
    (¬((localOf s).length ≤ 1 ∨ allSameB (localOf s) = true) →
      0 < shannonEntropy (localOf s) ∧
      shannonEntropy (localOf s) ≤ Real.logb 2 ((localOf s).toFinset.card : ℝ)) := by
  refine ⟨rfl, shannonEntropy_formula _, shannonEntropy_eq_zero_iff _, fun h => ?_⟩
  have hne : localOf s ≠ [] := by
    intro h0
    exact h (Or.inl (by rw [h0]; exact Nat.zero_le 1))
  exact ⟨shannonEntropy_pos _ h, shannonEntropy_le_logb_card _ hne⟩

/-- C6 witness: for the sender `ab@c.d` the local part is `ab`, which has
two distinct characters, so the entropy is strictly positive and bounded by
log2 of 2. -/
theorem c6_witness :
    0 < shannonEntropy (localOf (some (String.toList "ab@c.d"))) ∧
    shannonEntropy (localOf (some (String.toList "ab@c.d"))) ≤
      Real.logb 2 ((localOf (some (String.toList "ab@c.d"))).toFinset.card : ℝ) :=
  (c6_entropy (some (String.toList "ab@c.d"))).2.2.2 (by decide)

end Preproc
